import Mathlib

/-!
Shallow embedding of the `my_jpeg` baseline JPEG decoder (Python sources
`jpeg/misc.py`, `jpeg/image.py`, `jpeg/decoder.py`) and verification of the
specification's claims about it.

Byte buffers are modelled as `List Nat` (each entry one byte), machine
integers as `Nat`/`Int`.  Python exceptions are modelled by explicit
`Except` results with a `PyErr` value naming the kind of exception the
interpreter would raise.
-/

namespace MyJpeg

/-- The kinds of runtime failure the Python code can produce.
`jpegDecodeError` is the decoder's own structured `JPEGDecodeError`;
`structError` is `struct.error` from `unpack` applied to a short read;
`typeError` is an unstructured `TypeError` (e.g. subscripting `None`);
`indexError` is a numpy `IndexError`; `valueError` a `ValueError` from the
io layer; `hang` marks an input on which the Python loop never terminates. -/
inductive PyErr where
  | jpegDecodeError
  | structError
  | typeError
  | indexError
  | valueError
  | hang
deriving Repr, DecidableEq

/-! ## Bit reader (`misc.py`, class `BitStream`) -/

/-- A destuffed entropy-coded byte buffer with a bit cursor (`BitStream`). -/
structure BitStream where
  data : List Nat
  offset : Nat
deriving Repr, DecidableEq

/-- The bit denoted by cursor position `o` in `data`: bit `7 - o % 8`
of byte `o / 8`, and `0` past the end of the buffer. -/
def bitAt (data : List Nat) (o : Nat) : Nat :=
  if o / 8 < data.length then data.getD (o / 8) 0 / 2 ^ (7 - o % 8) % 2 else 0

/-- `BitStream.read` (reads one bit, MSB of each byte first; past the end of
the buffer it returns 0 and does not advance). -/
def BitStream.read (s : BitStream) : Nat × BitStream :=
  if s.data.length ≤ s.offset / 8 then (0, s)
  else (s.data.getD (s.offset / 8) 0 / 2 ^ (7 - s.offset % 8) % 2,
        { s with offset := s.offset + 1 })

/-- Accumulator loop of `BitStream.read_n`: `ret = ret * 2 + self.read()`. -/
def BitStream.readNAux (acc : Nat) (s : BitStream) : Nat → Nat × BitStream
  | 0 => (acc, s)
  | n + 1 =>
      let p := s.read
      BitStream.readNAux (acc * 2 + p.1) p.2 n

/-- `BitStream.read_n`: read `n` bits MSB-first as an unsigned integer. -/
def BitStream.read_n (s : BitStream) (n : Nat) : Nat × BitStream :=
  BitStream.readNAux 0 s n

/-- `BitStream.read_signed`: JPEG magnitude-category decoding.  Reads `n`
bits; if the category's top bit is 0 the raw value is shifted down by
`2^n - 1`, otherwise it is returned unchanged (`n = 0` gives 0). -/
def BitStream.read_signed (s : BitStream) (n : Nat) : Int × BitStream :=
  if n = 0 then (0, s)
  else
    let p := s.read_n n
    if p.1 / 2 ^ (n - 1) = 0 then ((p.1 : Int) - (2 ^ n - 1), p.2)
    else ((p.1 : Int), p.2)

/-- The value of `n` bits of `data` starting at cursor `o`, MSB first. -/
def rawBits (data : List Nat) (o n : Nat) : Nat :=
  (Finset.range n).sum fun i => bitAt data (o + i) * 2 ^ (n - 1 - i)

theorem bitAt_lt_two (data : List Nat) (o : Nat) : bitAt data o < 2 := by
  unfold bitAt
  split
  · exact Nat.mod_lt _ (by norm_num)
  · norm_num

theorem bitAt_of_past_end (data : List Nat) (o : Nat)
    (h : data.length ≤ o / 8) : bitAt data o = 0 := by
  unfold bitAt
  rw [if_neg (by omega)]

theorem read_eq (s : BitStream) :
    s.read = (bitAt s.data s.offset,
      if s.data.length ≤ s.offset / 8 then s
      else { s with offset := s.offset + 1 }) := by
  unfold BitStream.read bitAt
  by_cases h : s.data.length ≤ s.offset / 8
  · rw [if_pos h, if_pos h, if_neg (by omega)]
  · rw [if_neg h, if_neg h, if_pos (by omega)]

theorem rawBits_zero (data : List Nat) (o : Nat) : rawBits data o 0 = 0 := by
  simp [rawBits]

theorem rawBits_succ (data : List Nat) (o n : Nat) :
    rawBits data o (n + 1) = bitAt data o * 2 ^ n + rawBits data (o + 1) n := by
  unfold rawBits
  rw [Finset.sum_range_succ', add_comm]
  congr 1
  apply Finset.sum_congr rfl
  intro i _
  have h1 : o + (i + 1) = o + 1 + i := by omega
  have h2 : n + 1 - 1 - (i + 1) = n - 1 - i := by omega
  rw [h1, h2]

theorem rawBits_of_past_end (data : List Nat) (o n : Nat)
    (h : data.length ≤ o / 8) : rawBits data o n = 0 := by
  unfold rawBits
  apply Finset.sum_eq_zero
  intro i _
  have : data.length ≤ (o + i) / 8 := le_trans h (Nat.div_le_div_right (by omega))
  rw [bitAt_of_past_end data _ this]
  ring

theorem rawBits_lt (data : List Nat) (o n : Nat) : rawBits data o n < 2 ^ n := by
  induction n generalizing o with
  | zero => simp [rawBits_zero]
  | succ n ih =>
      rw [rawBits_succ]
      have h1 := bitAt_lt_two data o
      have h2 := ih (o + 1)
      have : bitAt data o * 2 ^ n ≤ 2 ^ n := by
        calc bitAt data o * 2 ^ n ≤ 1 * 2 ^ n := by
              exact Nat.mul_le_mul_right _ (by omega)
          _ = 2 ^ n := by ring
      calc bitAt data o * 2 ^ n + rawBits data (o + 1) n
          < bitAt data o * 2 ^ n + 2 ^ n := by omega
        _ ≤ 2 ^ n + 2 ^ n := by omega
        _ = 2 ^ (n + 1) := by ring

theorem readNAux_fst (n : Nat) : ∀ (acc : Nat) (s : BitStream),
    (BitStream.readNAux acc s n).1 = acc * 2 ^ n + rawBits s.data s.offset n := by
  induction n with
  | zero => intro acc s; simp [BitStream.readNAux, rawBits_zero]
  | succ n ih =>
      intro acc s
      rw [BitStream.readNAux, ih, read_eq]
      by_cases h : s.data.length ≤ s.offset / 8
      · rw [if_pos h]
        simp only
        rw [rawBits_of_past_end s.data s.offset (n + 1) h,
            rawBits_of_past_end s.data s.offset n h,
            bitAt_of_past_end s.data s.offset h]
        ring
      · rw [if_neg h]
        simp only
        rw [rawBits_succ]
        ring

theorem read_n_fst (s : BitStream) (n : Nat) :
    (s.read_n n).1 = rawBits s.data s.offset n := by
  rw [BitStream.read_n, readNAux_fst]
  ring

/-- The leading bit of an `n+1`-bit raw value is its top binary digit. -/
theorem rawBits_div (data : List Nat) (o n : Nat) :
    rawBits data o (n + 1) / 2 ^ n = bitAt data o := by
  rw [rawBits_succ, add_comm,
      Nat.add_mul_div_right _ _ (Nat.pos_pow_of_pos n (by norm_num)),
      Nat.div_eq_of_lt (rawBits_lt data (o + 1) n)]
  omega

/-- C7 helper: the value part of `read_signed`, in terms of the bit list. -/
theorem read_signed_fst (s : BitStream) (n : Nat) :
    (s.read_signed n).1 =
      if n = 0 then 0
      else if bitAt s.data s.offset = 0
      then (rawBits s.data s.offset n : Int) - (2 ^ n - 1)
      else (rawBits s.data s.offset n : Int) := by
  by_cases h0 : n = 0
  · simp [BitStream.read_signed, h0]
  · obtain ⟨m, rfl⟩ : ∃ m, n = m + 1 := ⟨n - 1, by omega⟩
    have hdiv : (s.read_n (m + 1)).1 / 2 ^ (m + 1 - 1) = bitAt s.data s.offset := by
      rw [read_n_fst]
      simpa using rawBits_div s.data s.offset m
    simp only [BitStream.read_signed, if_neg h0, hdiv]
    by_cases hb : bitAt s.data s.offset = 0
    · simp [hb, read_n_fst]
    · simp [hb, read_n_fst]

/-- **C7**: for every `n ≥ 0` and every bit-reader state, `read_signed n`
reads `n` bits MSB-first as a raw value and returns `raw - (2^n - 1)` when
the top bit of those `n` bits is 0, and `raw` unchanged otherwise, with
`n = 0` yielding 0; a single-bit read past end-of-buffer yields 0 without
failing (it is total and leaves the stream unchanged). -/
theorem readSignedCategory_spec (s : BitStream) (n : Nat) :
    (s.read_signed n).1 =
      (if n = 0 then 0
       else if bitAt s.data s.offset = 0
       then (rawBits s.data s.offset n : Int) - (2 ^ n - 1)
       else (rawBits s.data s.offset n : Int)) ∧
    (8 * s.data.length ≤ s.offset → s.read = (0, s)) := by
  refine ⟨read_signed_fst s n, fun h => ?_⟩
  rw [BitStream.read, if_pos (by omega)]

theorem readSignedCategory_spec_witness :
    ((⟨[0xA5], 99⟩ : BitStream).read = (0, ⟨[0xA5], 99⟩)) ∧
    ((⟨[0xA5], 0⟩ : BitStream).read_signed 3).1 = 5 := by
  refine ⟨(readSignedCategory_spec ⟨[0xA5], 99⟩ 3).2 (by norm_num), ?_⟩
  rw [(readSignedCategory_spec ⟨[0xA5], 0⟩ 3).1]
  decide

/-! ## Canonical Huffman table (`misc.py`, class `HuffmanTable`)

The Python table is an arena of nodes `[child-0, child-1, symbol]` reachable
from `nodes[0]`; a `None` child is modelled by the `nil` constructor.  (The
stray `[0, 0, 0]` nodes appended once per length in `__init__` are never
linked to the root and are therefore not part of the tree.) -/

/-- A Huffman trie node; `nil` models Python `None`. -/
inductive HTree where
  | nil : HTree
  | node (l r : HTree) (sym : Option Nat) : HTree
deriving Repr, DecidableEq

/-- `HuffmanTable.insert_sym`: walk `code` from the root, creating missing
nodes (with no symbol), and set the symbol of the final node, keeping any
children it already has. -/
def insert_sym : HTree → List Bool → Nat → HTree
  | .nil, [], s => .node .nil .nil (some s)
  | .node l r _, [], s => .node l r (some s)
  | .nil, b :: cs, s =>
      if b then .node .nil (insert_sym .nil cs s) none
      else .node (insert_sym .nil cs s) .nil none
  | .node l r y, b :: cs, s =>
      if b then .node l (insert_sym r cs s) y
      else .node (insert_sym l cs s) r y

/-- Number of binary digits of `v` as printed by Python's `'b'` format
(`0` prints as one digit `'0'`). -/
def bitLen (v : Nat) : Nat :=
  ((Finset.range (v + 1)).filter fun w => 2 ^ (w + 1) ≤ v).card + 1

/-- Exactly `w` MSB-first binary digits of `v` (its low `w` bits). -/
def natToBitsW (w v : Nat) : List Bool :=
  (List.range w).map fun i => v / 2 ^ (w - 1 - i) % 2 = 1

/-- Python `f'{v:0{w}b}'` as a bit list: the binary digits of `v`,
zero-padded on the left to width `w` — but never truncated, so the result
is wider than `w` when `v` needs more than `w` digits. -/
def natToBits (w v : Nat) : List Bool :=
  natToBitsW (max w (bitLen v)) v

/-- The code-assignment loop body for one length bucket: symbols of
`bucket` get consecutive running values starting at `acc`, as codes of
nominal width `L + 1`. -/
def insertLevel (t : HTree) (L acc : Nat) : List Nat → HTree
  | [] => t
  | x :: xs => insertLevel (insert_sym t (natToBits (L + 1) acc) x) L (acc + 1) xs

/-- `HuffmanTable.__init__`'s outer loop: for each length bucket, double the
running value (append a 0 bit), assign that bucket's codes, and carry the
running value past the bucket. -/
def buildAux (t : HTree) (L acc : Nat) : List (List Nat) → HTree
  | [] => t
  | bucket :: rest =>
      buildAux (insertLevel t L (acc * 2) bucket) (L + 1) (acc * 2 + bucket.length) rest

/-- `HuffmanTable(ht)`: build the decode trie from the 16 length buckets.
The root starts as `[None, None, None]`. -/
def HuffmanTable (ht : List (List Nat)) : HTree :=
  buildAux (.node .nil .nil none) 0 0 ht

/-- `HuffmanTable.next`: walk from the root, reading one bit per level, until
a node carrying a symbol; stepping into a missing (`None`) child makes the
next `cur[2]` lookup a Python `TypeError`. -/
def HTree.next : HTree → BitStream → Except PyErr (Nat × BitStream)
  | .nil, _ => .error .typeError
  | .node l r sym, s =>
      match sym with
      | some k => .ok (k, s)
      | none =>
          let p := s.read
          if p.1 = 1 then r.next p.2 else l.next p.2

/-- The symbol stored at the node reached from `t` by the path `p`
(`none` if the path leaves the tree or the node has no symbol). -/
def symAt : HTree → List Bool → Option Nat
  | .nil, _ => none
  | .node _ _ sym, [] => sym
  | .node l r _, b :: cs => if b then symAt r cs else symAt l cs

/-- The transcript of code assignments for one bucket. -/
def levelCodes (L acc : Nat) : List Nat → List (List Bool × Nat)
  | [] => []
  | x :: xs => (natToBits (L + 1) acc, x) :: levelCodes L (acc + 1) xs

/-- The transcript of all code assignments made by `HuffmanTable.__init__`,
in assignment order. -/
def codesOfAux (L acc : Nat) : List (List Nat) → List (List Bool × Nat)
  | [] => []
  | bucket :: rest =>
      levelCodes L (acc * 2) bucket ++ codesOfAux (L + 1) (acc * 2 + bucket.length) rest

/-- All `(code, symbol)` assignments of the canonical build, in order. -/
def codesOf (ht : List (List Nat)) : List (List Bool × Nat) :=
  codesOfAux 0 0 ht

/-- The running code value fits every non-empty bucket: no bucket is
over-subscribed (each assigned value of nominal width `L + 1` stays below
`2 ^ (L + 1)`). -/
def goodB : Nat → Nat → List (List Nat) → Bool
  | _, _, [] => true
  | L, acc, bucket :: rest =>
      decide (acc * 2 + bucket.length ≤ 2 ^ (L + 1)) &&
        goodB (L + 1) (acc * 2 + bucket.length) rest

/-! ### Values of MSB-first bit lists -/

/-- Numeric value of one bit. -/
def bitVal (b : Bool) : Nat := if b then 1 else 0

/-- The value of an MSB-first bit list (the accumulator loop `ret = 2*ret + bit`). -/
def valMSB (l : List Bool) : Nat := l.foldl (fun a b => 2 * a + bitVal b) 0

theorem valMSB_foldl_acc (l : List Bool) : ∀ a : Nat,
    l.foldl (fun a b => 2 * a + bitVal b) a = a * 2 ^ l.length + valMSB l := by
  induction l with
  | nil => intro a; simp [valMSB]
  | cons b t ih =>
      intro a
      have h0 : valMSB (b :: t) = bitVal b * 2 ^ t.length + valMSB t := by
        show List.foldl (fun a b => 2 * a + bitVal b) (2 * 0 + bitVal b) t = _
        rw [ih (2 * 0 + bitVal b)]
        ring
      simp only [List.foldl_cons, List.length_cons]
      rw [ih (2 * a + bitVal b), h0]
      ring

theorem valMSB_cons (b : Bool) (t : List Bool) :
    valMSB (b :: t) = bitVal b * 2 ^ t.length + valMSB t := by
  simp only [valMSB, List.foldl_cons]
  have := valMSB_foldl_acc t (2 * 0 + bitVal b)
  simpa [valMSB] using this

theorem valMSB_append (l₁ l₂ : List Bool) :
    valMSB (l₁ ++ l₂) = valMSB l₁ * 2 ^ l₂.length + valMSB l₂ := by
  simp only [valMSB, List.foldl_append]
  exact valMSB_foldl_acc l₂ _

theorem valMSB_lt (l : List Bool) : valMSB l < 2 ^ l.length := by
  induction l with
  | nil => simp [valMSB]
  | cons b t ih =>
      rw [valMSB_cons]
      have hb : bitVal b ≤ 1 := by cases b <;> simp [bitVal]
      have h1 : bitVal b * 2 ^ t.length ≤ 1 * 2 ^ t.length := Nat.mul_le_mul_right _ hb
      have h2 : (2 : Nat) ^ (t.length + 1) = 2 ^ t.length + 2 ^ t.length := by ring
      simp only [List.length_cons]
      omega

theorem length_natToBitsW (w v : Nat) : (natToBitsW w v).length = w := by
  simp [natToBitsW]

theorem natToBitsW_succ (w v : Nat) :
    natToBitsW (w + 1) v = (decide (v / 2 ^ w % 2 = 1)) :: natToBitsW w v := by
  apply List.ext_getElem
  · simp [natToBitsW]
  · intro i h1 h2
    rcases i with _ | i
    · simp [natToBitsW]
    · simp only [natToBitsW, List.getElem_cons_succ, List.getElem_map, List.getElem_range]
      have h : w + 1 - 1 - (i + 1) = w - 1 - i := by omega
      rw [h]

theorem bitVal_decide (x : Nat) (h : x < 2) : bitVal (decide (x = 1)) = x := by
  interval_cases x <;> simp [bitVal]

theorem valMSB_natToBitsW (w : Nat) : ∀ v : Nat, valMSB (natToBitsW w v) = v % 2 ^ w := by
  induction w with
  | zero => intro v; simp [natToBitsW, valMSB, Nat.mod_one]
  | succ w ih =>
      intro v
      rw [natToBitsW_succ, valMSB_cons, length_natToBitsW, ih,
          bitVal_decide _ (Nat.mod_lt _ (by norm_num)), pow_succ, Nat.mod_mul]
      ring

theorem bitLen_le_of_lt {v w : Nat} (hw : 1 ≤ w) (hv : v < 2 ^ w) : bitLen v ≤ w := by
  unfold bitLen
  have hsub : ((Finset.range (v + 1)).filter fun x => 2 ^ (x + 1) ≤ v) ⊆
      Finset.range (w - 1) := by
    intro x hx
    simp only [Finset.mem_filter, Finset.mem_range] at hx ⊢
    have hlt : 2 ^ (x + 1) < 2 ^ w := lt_of_le_of_lt hx.2 hv
    have := (Nat.pow_lt_pow_iff_right (by norm_num : 1 < 2)).mp hlt
    omega
  have := Finset.card_le_card hsub
  rw [Finset.card_range] at this
  omega

/-- For values that fit their nominal width, the Python format emits exactly
`w` digits. -/
theorem natToBits_eq_of_lt {v w : Nat} (hw : 1 ≤ w) (hv : v < 2 ^ w) :
    natToBits w v = natToBitsW w v := by
  unfold natToBits
  rw [Nat.max_eq_left (bitLen_le_of_lt hw hv)]

theorem length_natToBits_of_lt {v w : Nat} (hw : 1 ≤ w) (hv : v < 2 ^ w) :
    (natToBits w v).length = w := by
  rw [natToBits_eq_of_lt hw hv, length_natToBitsW]

theorem valMSB_natToBits_of_lt {v w : Nat} (hw : 1 ≤ w) (hv : v < 2 ^ w) :
    valMSB (natToBits w v) = v := by
  rw [natToBits_eq_of_lt hw hv, valMSB_natToBitsW, Nat.mod_eq_of_lt hv]

/-! ### What `insert_sym` does to `symAt` -/

theorem symAt_nil (p : List Bool) : symAt .nil p = none := by
  cases p <;> rfl

theorem symAt_insert (c : List Bool) : ∀ (t : HTree) (s : Nat) (p : List Bool),
    symAt (insert_sym t c s) p = if p = c then some s else symAt t p := by
  induction c with
  | nil =>
      intro t s p
      cases t with
      | nil =>
          cases p with
          | nil => simp [insert_sym, symAt]
          | cons b bs =>
              simp only [insert_sym, symAt, if_neg (by simp : ¬(b :: bs = []))]
              cases b <;> simp [symAt_nil]
      | node l r y =>
          cases p with
          | nil => simp [insert_sym, symAt]
          | cons b bs =>
              simp [insert_sym, symAt]
  | cons b cs ih =>
      intro t s p
      cases t with
      | nil =>
          cases p with
          | nil => cases b <;> simp [insert_sym, symAt]
          | cons b' bs =>
              cases b <;> cases b' <;>
                simp [insert_sym, symAt, ih, symAt_nil]
      | node l r y =>
          cases p with
          | nil => cases b <;> simp [insert_sym, symAt]
          | cons b' bs =>
              cases b <;> cases b' <;>
                simp [insert_sym, symAt, ih]

/-- Folding a list of insertions: a path that is none of the codes keeps its
symbol. -/
theorem symAt_foldl_of_not_mem (ps : List (List Bool × Nat)) :
    ∀ (t : HTree) (p : List Bool), p ∉ ps.map Prod.fst →
      symAt (ps.foldl (fun t q => insert_sym t q.1 q.2) t) p = symAt t p := by
  induction ps with
  | nil => intro t p _; rfl
  | cons q ps ih =>
      intro t p hp
      simp only [List.map_cons, List.mem_cons] at hp
      push_neg at hp
      simp only [List.foldl_cons]
      rw [ih _ p hp.2, symAt_insert, if_neg hp.1]

/-- Folding a list of insertions with pairwise-distinct codes: each code ends
up holding its symbol. -/
theorem symAt_foldl_of_mem (ps : List (List Bool × Nat)) :
    ∀ (t : HTree) (c : List Bool) (k : Nat),
      (ps.map Prod.fst).Nodup → (c, k) ∈ ps →
      symAt (ps.foldl (fun t q => insert_sym t q.1 q.2) t) c = some k := by
  induction ps with
  | nil => intro t c k _ h; simp at h
  | cons q ps ih =>
      intro t c k hnd hm
      simp only [List.map_cons, List.nodup_cons] at hnd
      simp only [List.foldl_cons]
      rcases List.mem_cons.mp hm with h | h
      · subst h
        rw [symAt_foldl_of_not_mem ps _ c hnd.1, symAt_insert, if_pos rfl]
      · exact ih _ c k hnd.2 h

/-- A path carrying a symbol after the fold is one of the inserted codes,
unless it already carried that symbol. -/
theorem symAt_foldl_some (ps : List (List Bool × Nat)) :
    ∀ (t : HTree) (p : List Bool) (k : Nat),
      symAt (ps.foldl (fun t q => insert_sym t q.1 q.2) t) p = some k →
      p ∈ ps.map Prod.fst ∨ symAt t p = some k := by
  induction ps with
  | nil => intro t p k h; exact Or.inr h
  | cons q ps ih =>
      intro t p k h
      simp only [List.foldl_cons] at h
      rcases ih _ p k h with h' | h'
      · exact Or.inl (by simp [h'])
      · rw [symAt_insert] at h'
        by_cases hpq : p = q.1
        · exact Or.inl (by simp [hpq])
        · rw [if_neg hpq] at h'
          exact Or.inr h'

/-! ### Walking the decode trie -/

/-- The bits of `bs` lie at the cursor of `s`, inside the buffer. -/
def streamHas (s : BitStream) (bs : List Bool) : Prop :=
  s.offset + bs.length ≤ 8 * s.data.length ∧
    ∀ i < bs.length, bitAt s.data (s.offset + i) = bitVal (bs.getD i false)

instance (s : BitStream) (bs : List Bool) : Decidable (streamHas s bs) := by
  unfold streamHas
  infer_instance

theorem streamHas_nil (s : BitStream) (h : s.offset ≤ 8 * s.data.length) :
    streamHas s [] := ⟨by simpa using h, by intro i hi; simp at hi⟩

theorem streamHas_cons {s : BitStream} {b : Bool} {bs : List Bool}
    (h : streamHas s (b :: bs)) :
    bitAt s.data s.offset = bitVal b ∧
      streamHas { s with offset := s.offset + 1 } bs := by
  obtain ⟨hlen, hbit⟩ := h
  refine ⟨by simpa using hbit 0 (by simp), ?_, ?_⟩
  · simp only [List.length_cons] at hlen
    simp only
    omega
  · intro i hi
    have := hbit (i + 1) (by simpa using Nat.succ_lt_succ hi)
    simpa [Nat.add_assoc, Nat.add_comm 1 i, Nat.add_left_comm] using this

/-- Walking the trie along a stored code whose proper prefixes carry no
symbol consumes exactly the code's bits and returns its symbol. -/
theorem next_ok (c : List Bool) : ∀ (t : HTree) (s : BitStream) (k : Nat),
    symAt t c = some k →
    (∀ p, p <+: c → p ≠ c → symAt t p = none) →
    streamHas s c →
    t.next s = .ok (k, { s with offset := s.offset + c.length }) := by
  induction c with
  | nil =>
      intro t s k hsym _ _
      cases t with
      | nil => simp [symAt_nil] at hsym
      | node l r y =>
          simp only [symAt] at hsym
          subst hsym
          simp [HTree.next]
  | cons b cs ih =>
      intro t s k hsym hpre hs
      cases t with
      | nil => simp [symAt_nil] at hsym
      | node l r y =>
          have hy : y = none := by
            have := hpre [] ⟨b :: cs, rfl⟩ (by simp)
            simpa [symAt] using this
          subst hy
          obtain ⟨hbit, hs'⟩ := streamHas_cons hs
          have hbound : ¬ s.data.length ≤ s.offset / 8 := by
            obtain ⟨hlen, _⟩ := hs
            simp only [List.length_cons] at hlen
            omega
          rw [HTree.next]
          simp only [read_eq, if_neg hbound]
          cases b with
          | true =>
              have h1 : bitVal true = 1 := rfl
              rw [hbit, h1, if_pos rfl]
              have hrec := ih r { s with offset := s.offset + 1 } k
                (by simpa [symAt] using hsym)
                (fun p hp hne => by
                  have := hpre (true :: p) (by obtain ⟨u, hu⟩ := hp; exact ⟨u, by simp [hu]⟩) (by simpa using hne)
                  simpa [symAt] using this)
                hs'
              simpa [Nat.add_assoc, Nat.add_comm 1 cs.length] using hrec
          | false =>
              have h1 : bitVal false = 0 := rfl
              rw [hbit, h1, if_neg (by norm_num)]
              have hrec := ih l { s with offset := s.offset + 1 } k
                (by simpa [symAt] using hsym)
                (fun p hp hne => by
                  have := hpre (false :: p) (by obtain ⟨u, hu⟩ := hp; exact ⟨u, by simp [hu]⟩) (by simpa using hne)
                  simpa [symAt] using this)
                hs'
              simpa [Nat.add_assoc, Nat.add_comm 1 cs.length] using hrec

/-! ### Canonical codes are prefix-free -/

/-- The value of a code left-aligned in a 16-bit window: codes correspond to
the half-open interval `[wVal c, wVal c + 2^(16 - c.length))`. -/
def wVal (c : List Bool) : Nat := valMSB c * 2 ^ (16 - c.length)

theorem wVal_prefix_window {c1 c2 : List Bool} (h : c1 <+: c2) (h2 : c2.length ≤ 16) :
    wVal c1 ≤ wVal c2 ∧ wVal c2 < wVal c1 + 2 ^ (16 - c1.length) := by
  obtain ⟨t, rfl⟩ := h
  unfold wVal
  rw [valMSB_append, List.length_append]
  rw [List.length_append] at h2
  have hlt := valMSB_lt t
  have he : 16 - c1.length = t.length + (16 - (c1.length + t.length)) := by omega
  have hpow : (2 : Nat) ^ (16 - c1.length) =
      2 ^ t.length * 2 ^ (16 - (c1.length + t.length)) := by
    rw [he, pow_add]
  constructor
  · calc valMSB c1 * 2 ^ (16 - c1.length)
        = valMSB c1 * 2 ^ t.length * 2 ^ (16 - (c1.length + t.length)) := by
          rw [hpow]; ring
      _ ≤ (valMSB c1 * 2 ^ t.length + valMSB t) * 2 ^ (16 - (c1.length + t.length)) :=
          Nat.mul_le_mul_right _ (by omega)
  · calc (valMSB c1 * 2 ^ t.length + valMSB t) * 2 ^ (16 - (c1.length + t.length))
        < (valMSB c1 * 2 ^ t.length + 2 ^ t.length) * 2 ^ (16 - (c1.length + t.length)) := by
          have hp : 0 < (2 : Nat) ^ (16 - (c1.length + t.length)) :=
            Nat.pos_pow_of_pos _ (by norm_num)
          exact Nat.mul_lt_mul_of_lt_of_le (by omega) (le_refl _) hp
      _ = valMSB c1 * 2 ^ (16 - c1.length) + 2 ^ (16 - c1.length) := by
          rw [hpow]; ring

/-- Disjoint, ordered windows mean neither code is a prefix of the other. -/
theorem sep_noPrefix {c1 c2 : List Bool} (h1 : c1.length ≤ 16) (h2 : c2.length ≤ 16)
    (hsep : wVal c1 + 2 ^ (16 - c1.length) ≤ wVal c2) :
    ¬ c1 <+: c2 ∧ ¬ c2 <+: c1 := by
  constructor
  · intro hp
    have := (wVal_prefix_window hp h2).2
    omega
  · intro hp
    have h3 := (wVal_prefix_window hp h1).1
    have hpos : 0 < (2 : Nat) ^ (16 - c1.length) := Nat.pos_pow_of_pos _ (by norm_num)
    omega

theorem levelCodes_map_snd (L : Nat) : ∀ (xs : List Nat) (acc : Nat),
    (levelCodes L acc xs).map Prod.snd = xs := by
  intro xs
  induction xs with
  | nil => intro acc; rfl
  | cons x xs ih => intro acc; simp [levelCodes, ih]

theorem codesOfAux_map_snd : ∀ (bs : List (List Nat)) (L acc : Nat),
    (codesOfAux L acc bs).map Prod.snd = bs.flatten := by
  intro bs
  induction bs with
  | nil => intro L acc; rfl
  | cons bucket rest ih =>
      intro L acc
      simp [codesOfAux, levelCodes_map_snd, ih]

/-- Every symbol of the 16 buckets receives exactly one code assignment, in
bucket order; construction never fails. -/
theorem codesOf_map_snd (ht : List (List Nat)) :
    (codesOf ht).map Prod.snd = ht.flatten :=
  codesOfAux_map_snd ht 0 0

theorem levelCodes_inv (L : Nat) (hL : L ≤ 15) : ∀ (xs : List Nat) (acc : Nat),
    acc + xs.length ≤ 2 ^ (L + 1) →
    (∀ c ∈ (levelCodes L acc xs).map Prod.fst,
        c.length = L + 1 ∧ acc * 2 ^ (15 - L) ≤ wVal c ∧
          wVal c + 2 ^ (15 - L) ≤ (acc + xs.length) * 2 ^ (15 - L)) ∧
    List.Pairwise (fun c1 c2 => wVal c1 + 2 ^ (16 - c1.length) ≤ wVal c2)
      ((levelCodes L acc xs).map Prod.fst) := by
  intro xs
  induction xs with
  | nil => intro acc _; exact ⟨by simp [levelCodes], by simp [levelCodes]⟩
  | cons x xs ih =>
      intro acc hacc
      have hacclt : acc < 2 ^ (L + 1) := by
        simp only [List.length_cons] at hacc; omega
      have hc0 : natToBits (L + 1) acc = natToBitsW (L + 1) acc :=
        natToBits_eq_of_lt (by omega) hacclt
      have hlen0 : (natToBits (L + 1) acc).length = L + 1 := by
        rw [hc0, length_natToBitsW]
      have hval0 : valMSB (natToBits (L + 1) acc) = acc := by
        rw [hc0, valMSB_natToBitsW, Nat.mod_eq_of_lt hacclt]
      have hw0 : wVal (natToBits (L + 1) acc) = acc * 2 ^ (15 - L) := by
        unfold wVal
        rw [hlen0, hval0]
        congr 2
        omega
      have hexp0 : 16 - (natToBits (L + 1) acc).length = 15 - L := by
        rw [hlen0]; omega
      obtain ⟨ihmem, ihpair⟩ := ih (acc + 1) (by
        simp only [List.length_cons] at hacc; omega)
      constructor
      · intro c hc
        simp only [levelCodes, List.map_cons, List.mem_cons] at hc
        rcases hc with rfl | hc
        · refine ⟨hlen0, le_of_eq hw0.symm, ?_⟩
          rw [hw0]
          simp only [List.length_cons]
          have : acc + 1 ≤ acc + (xs.length + 1) := by omega
          calc acc * 2 ^ (15 - L) + 2 ^ (15 - L) = (acc + 1) * 2 ^ (15 - L) := by ring
            _ ≤ (acc + (xs.length + 1)) * 2 ^ (15 - L) :=
                Nat.mul_le_mul_right _ this
        · obtain ⟨hl, hlo, hhi⟩ := ihmem c hc
          refine ⟨hl, le_trans (Nat.mul_le_mul_right _ (by omega)) hlo, ?_⟩
          simp only [List.length_cons]
          have : acc + 1 + xs.length = acc + (xs.length + 1) := by omega
          rw [← this]
          exact hhi
      · simp only [levelCodes, List.map_cons]
        refine List.Pairwise.cons ?_ ihpair
        intro c hc
        obtain ⟨_, hlo, _⟩ := ihmem c hc
        rw [hw0, hexp0]
        calc acc * 2 ^ (15 - L) + 2 ^ (15 - L) = (acc + 1) * 2 ^ (15 - L) := by ring
          _ ≤ wVal c := hlo

theorem codesOfAux_inv : ∀ (bs : List (List Nat)) (L acc : Nat),
    goodB L acc bs = true → L + bs.length ≤ 16 → acc ≤ 2 ^ L →
    (∀ c ∈ (codesOfAux L acc bs).map Prod.fst,
        L + 1 ≤ c.length ∧ c.length ≤ 16 ∧ acc * 2 ^ (16 - L) ≤ wVal c) ∧
    List.Pairwise (fun c1 c2 => wVal c1 + 2 ^ (16 - c1.length) ≤ wVal c2)
      ((codesOfAux L acc bs).map Prod.fst) := by
  intro bs
  induction bs with
  | nil => intro L acc _ _ _; exact ⟨by simp [codesOfAux], by simp [codesOfAux]⟩
  | cons bucket rest ih =>
      intro L acc hgood hlen hacc
      simp only [goodB, Bool.and_eq_true, decide_eq_true_eq] at hgood
      obtain ⟨hA, hRest⟩ := hgood
      have hL : L ≤ 15 := by simp only [List.length_cons] at hlen; omega
      have hAcc2 : acc * 2 + bucket.length ≤ 2 ^ (L + 1) := hA
      obtain ⟨lvlmem, lvlpair⟩ := levelCodes_inv L hL bucket (acc * 2) hA
      obtain ⟨ihmem, ihpair⟩ := ih (L + 1) (acc * 2 + bucket.length) hRest
        (by simp only [List.length_cons] at hlen; omega) hA
      have hsplit : (2 : Nat) ^ (16 - L) = 2 ^ (15 - L) * 2 := by
        have : 16 - L = (15 - L) + 1 := by omega
        rw [this, pow_succ]
      constructor
      · intro c hc
        simp only [codesOfAux, List.map_append, List.mem_append] at hc
        rcases hc with hc | hc
        · obtain ⟨hl, hlo, _⟩ := lvlmem c hc
          refine ⟨le_of_eq hl.symm, by omega, ?_⟩
          calc acc * 2 ^ (16 - L) = acc * 2 * 2 ^ (15 - L) := by rw [hsplit]; ring
            _ ≤ wVal c := hlo
        · obtain ⟨hl, hl16, hlo⟩ := ihmem c hc
          refine ⟨by omega, hl16, ?_⟩
          calc acc * 2 ^ (16 - L) = acc * 2 * 2 ^ (16 - (L + 1)) := by
                have h1 : 16 - (L + 1) = 15 - L := by omega
                rw [h1, hsplit]; ring
            _ ≤ (acc * 2 + bucket.length) * 2 ^ (16 - (L + 1)) :=
                Nat.mul_le_mul_right _ (by omega)
            _ ≤ wVal c := hlo
      · simp only [codesOfAux, List.map_append]
        rw [List.pairwise_append]
        refine ⟨lvlpair, ihpair, ?_⟩
        intro a ha b hb
        obtain ⟨hal, _, hahi⟩ := lvlmem a ha
        obtain ⟨_, _, hblo⟩ := ihmem b hb
        have hexp : 16 - a.length = 15 - L := by rw [hal]; omega
        rw [hexp]
        calc wVal a + 2 ^ (15 - L) ≤ (acc * 2 + bucket.length) * 2 ^ (15 - L) := hahi
          _ = (acc * 2 + bucket.length) * 2 ^ (16 - (L + 1)) := by
              have h1 : 16 - (L + 1) = 15 - L := by omega
              rw [h1]
          _ ≤ wVal b := hblo

/-! ### Sequential decoding -/

/-- Iterate `HuffmanTable.next` a given number of times. -/
def decodeSeq (t : HTree) : Nat → BitStream → Except PyErr (List Nat × BitStream)
  | 0, s => .ok ([], s)
  | n + 1, s =>
      match t.next s with
      | .error e => .error e
      | .ok (k, s') =>
          match decodeSeq t n s' with
          | .error e => .error e
          | .ok (ks, s'') => .ok (k :: ks, s'')

theorem streamHas_append {s : BitStream} {a b : List Bool}
    (h : streamHas s (a ++ b)) :
    streamHas s a ∧ streamHas { s with offset := s.offset + a.length } b := by
  obtain ⟨hlen, hbit⟩ := h
  rw [List.length_append] at hlen
  refine ⟨⟨by omega, ?_⟩, ⟨by simp only; omega, ?_⟩⟩
  · intro i hi
    have := hbit i (by rw [List.length_append]; omega)
    rwa [List.getD_append _ _ _ _ hi] at this
  · intro i hi
    have := hbit (a.length + i) (by rw [List.length_append]; omega)
    rw [List.getD_append_right _ _ _ _ (by omega)] at this
    simp only [Nat.add_sub_cancel_left] at this
    simpa [Nat.add_assoc] using this

theorem insertLevel_eq_foldl (xs : List Nat) : ∀ (t : HTree) (L acc : Nat),
    insertLevel t L acc xs =
      (levelCodes L acc xs).foldl (fun t q => insert_sym t q.1 q.2) t := by
  induction xs with
  | nil => intro t L acc; rfl
  | cons x xs ih => intro t L acc; simp [insertLevel, levelCodes, ih]

theorem buildAux_eq_foldl (bs : List (List Nat)) : ∀ (t : HTree) (L acc : Nat),
    buildAux t L acc bs =
      (codesOfAux L acc bs).foldl (fun t q => insert_sym t q.1 q.2) t := by
  induction bs with
  | nil => intro t L acc; rfl
  | cons bucket rest ih =>
      intro t L acc
      simp [buildAux, codesOfAux, ih, insertLevel_eq_foldl, List.foldl_append]

theorem symAt_root (p : List Bool) : symAt (.node .nil .nil none) p = none := by
  cases p with
  | nil => rfl
  | cons b bs => cases b <;> simp [symAt, symAt_nil]

/-- Decoding a list of codes stored in the trie, one after the other, from a
stream carrying their concatenation, returns the symbols in order. -/
theorem decodeSeq_codes (ps : List (List Bool × Nat)) : ∀ (t : HTree) (s : BitStream),
    (∀ q ∈ ps, symAt t q.1 = some q.2) →
    (∀ q ∈ ps, ∀ p, p <+: q.1 → p ≠ q.1 → symAt t p = none) →
    streamHas s ((ps.map Prod.fst).flatten) →
    decodeSeq t ps.length s =
      .ok (ps.map Prod.snd,
        { s with offset := s.offset + ((ps.map Prod.fst).flatten).length }) := by
  induction ps with
  | nil =>
      intro t s _ _ _
      simp [decodeSeq]
  | cons q ps ih =>
      intro t s hsym hpre hs
      simp only [List.map_cons, List.flatten_cons] at hs
      obtain ⟨hs1, hs2⟩ := streamHas_append hs
      have hnext := next_ok q.1 t s q.2 (hsym q (by simp))
        (fun p hp hne => hpre q (by simp) p hp hne) hs1
      have hrec := ih t { s with offset := s.offset + q.1.length }
        (fun r hr => hsym r (by simp [hr]))
        (fun r hr p hp hne => hpre r (by simp [hr]) p hp hne)
        hs2
      simp only [List.length_cons, decodeSeq, hnext, hrec, List.map_cons,
        List.flatten_cons, List.length_append, ← Nat.add_assoc]

/-! ### C8: canonical Huffman determinism -/

/-- All codes assigned by `HuffmanTable.__init__`, in assignment order. -/
def assignedCodes (ht : List (List Nat)) : List (List Bool) :=
  (codesOf ht).map Prod.fst

/-- The concatenation of all assigned codes, in assignment order. -/
def codeConcat (ht : List (List Nat)) : List Bool :=
  (assignedCodes ht).flatten

theorem codesOf_inv (ht : List (List Nat)) (hlen : ht.length = 16)
    (hgood : goodB 0 0 ht = true) :
    (∀ c ∈ assignedCodes ht, 1 ≤ c.length ∧ c.length ≤ 16) ∧
    List.Pairwise (fun c1 c2 => ¬ c1 <+: c2 ∧ ¬ c2 <+: c1) (assignedCodes ht) := by
  obtain ⟨hmem, hpair⟩ := codesOfAux_inv ht 0 0 hgood (by omega) (by norm_num)
  refine ⟨fun c hc => ⟨(hmem c hc).1, (hmem c hc).2.1⟩, ?_⟩
  refine List.Pairwise.imp_of_mem ?_ hpair
  intro c1 c2 h1 h2 hsep
  exact sep_noPrefix (hmem c1 h1).2.1 (hmem c2 h2).2.1 hsep

theorem assignedCodes_nodup (ht : List (List Nat)) (hlen : ht.length = 16)
    (hgood : goodB 0 0 ht = true) : (assignedCodes ht).Nodup := by
  have := (codesOf_inv ht hlen hgood).2
  refine List.Pairwise.imp ?_ this
  intro c1 c2 h
  intro heq
  exact h.1 (heq ▸ List.prefix_refl c1)

theorem symAt_HuffmanTable (ht : List (List Nat)) (hlen : ht.length = 16)
    (hgood : goodB 0 0 ht = true) :
    (∀ q ∈ codesOf ht, symAt (HuffmanTable ht) q.1 = some q.2) ∧
    (∀ q ∈ codesOf ht, ∀ p, p <+: q.1 → p ≠ q.1 → symAt (HuffmanTable ht) p = none) := by
  have hbuild : HuffmanTable ht =
      (codesOf ht).foldl (fun t q => insert_sym t q.1 q.2) (.node .nil .nil none) :=
    buildAux_eq_foldl ht _ 0 0
  have hnd : ((codesOf ht).map Prod.fst).Nodup := assignedCodes_nodup ht hlen hgood
  constructor
  · intro q hq
    rw [hbuild]
    exact symAt_foldl_of_mem (codesOf ht) _ q.1 q.2 hnd hq
  · intro q hq p hp hne
    cases hval : symAt (HuffmanTable ht) p with
    | none => rfl
    | some k =>
        exfalso
        rw [hbuild] at hval
        rcases symAt_foldl_some (codesOf ht) _ p k hval with hmem | hroot
        · have hq1 : q.1 ∈ assignedCodes ht := List.mem_map_of_mem Prod.fst hq
          have hsymm : Symmetric fun c1 c2 : List Bool => ¬ c1 <+: c2 ∧ ¬ c2 <+: c1 :=
            fun c1 c2 h => ⟨h.2, h.1⟩
          have := ((codesOf_inv ht hlen hgood).2.forall hsymm) hmem hq1 hne
          exact this.1 hp
        · rw [symAt_root] at hroot
          exact Option.noConfusion hroot

/-- **C8**: for every set of 16 code-length buckets admitting a valid
canonical assignment, the build rule's codes form a prefix-free set with
exactly one code per symbol (the assignment order lists every bucket symbol
once, and the codes are pairwise distinct), and tree-decoding the
concatenation of all assigned codes in assignment order reproduces the
original symbol sequence. -/
theorem huffman_canonical (ht : List (List Nat)) (hlen : ht.length = 16)
    (hgood : goodB 0 0 ht = true) (s : BitStream)
    (hs : streamHas s (codeConcat ht)) :
    List.Pairwise (fun c1 c2 => ¬ c1 <+: c2 ∧ ¬ c2 <+: c1) (assignedCodes ht) ∧
    (assignedCodes ht).Nodup ∧
    (codesOf ht).map Prod.snd = ht.flatten ∧
    decodeSeq (HuffmanTable ht) (codesOf ht).length s =
      .ok (ht.flatten, { s with offset := s.offset + (codeConcat ht).length }) := by
  obtain ⟨hfound, hnopre⟩ := symAt_HuffmanTable ht hlen hgood
  refine ⟨(codesOf_inv ht hlen hgood).2, assignedCodes_nodup ht hlen hgood,
    codesOf_map_snd ht, ?_⟩
  have := decodeSeq_codes (codesOf ht) (HuffmanTable ht) s hfound hnopre hs
  rwa [codesOf_map_snd ht] at this

theorem huffman_canonical_witness :
    decodeSeq (HuffmanTable ([[5], [3, 7]] ++ List.replicate 14 [])) 3 ⟨[0x58], 0⟩ =
      .ok ([5, 3, 7], ⟨[0x58], 5⟩) := by
  have h := huffman_canonical ([[5], [3, 7]] ++ List.replicate 14 [])
    (by decide) (by decide) ⟨[0x58], 0⟩ (by decide)
  exact h.2.2.2

/-! ### C4: over-subscribed tables -/

/-- **C4 counterexample**: for the over-subscribed bucket input
`[[1,2,3]], [], …` (three codes of length 1), construction does *not* report
a malformed-table error: it builds a table, silently inserting the third
symbol at the two-bit code `10` produced by the unbounded format string. -/
theorem c4_oversubscribed_counterexample :
    goodB 0 0 ([[1, 2, 3]] ++ List.replicate 15 []) = false ∧
    symAt (HuffmanTable ([[1, 2, 3]] ++ List.replicate 15 [])) [false] = some 1 ∧
    symAt (HuffmanTable ([[1, 2, 3]] ++ List.replicate 15 [])) [true] = some 2 ∧
    symAt (HuffmanTable ([[1, 2, 3]] ++ List.replicate 15 [])) [true, false] = some 3 := by
  refine ⟨by decide, by decide, by decide, by decide⟩

/-- **C4 (amended)**: for every 16-bucket symbol-list input whose code-length
buckets are over-subscribed, Huffman table construction does not report any
error: it still assigns every bucket symbol exactly one code (in bucket
order) and builds the trie from exactly those assignments. -/
theorem c4_oversubscribed_builds (ht : List (List Nat))
    (_hover : goodB 0 0 ht = false) :
    (codesOf ht).map Prod.snd = ht.flatten ∧
    HuffmanTable ht =
      (codesOf ht).foldl (fun t q => insert_sym t q.1 q.2) (.node .nil .nil none) :=
  ⟨codesOf_map_snd ht, buildAux_eq_foldl ht _ 0 0⟩

theorem c4_oversubscribed_builds_witness :
    (codesOf ([[1, 2, 3]] ++ List.replicate 15 [])).map Prod.snd =
      ([[1, 2, 3]] ++ List.replicate 15 []).flatten :=
  (c4_oversubscribed_builds ([[1, 2, 3]] ++ List.replicate 15 []) (by decide)).1

/-! ### C5: decoding from an exhausted bitstream -/

/-- The walk `HuffmanTable.next` performs once the buffer is exhausted: every
`read()` yields 0, so it follows child-0 links until a symbol (returned
normally) or a missing child (Python raises `TypeError`, not a decode
error). -/
def walkZeros : HTree → Except PyErr Nat
  | .nil => .error .typeError
  | .node l _ sym =>
      match sym with
      | some k => .ok k
      | none => walkZeros l

/-- **C5 counterexample**: with the table built from `[[42]], [], …` and an
already-exhausted bitstream, `next` returns the symbol 42 instead of failing
with a structured decode error. -/
theorem c5_exhausted_counterexample :
    HTree.next (HuffmanTable ([[42]] ++ List.replicate 15 [])) ⟨[], 0⟩ =
      .ok (42, ⟨[], 0⟩) := by
  rfl

/-- **C5 (amended)**: when the buffer is exhausted before the walk reaches a
symbol, `readBit` keeps returning 0 without failing, so `next` follows the
all-zeros path: it returns that path's symbol normally if one exists, and
otherwise dies with an unstructured `TypeError` (a null-child subscript), in
neither case producing a structured decode error. -/
theorem c5_exhausted_next (t : HTree) (s : BitStream)
    (h : 8 * s.data.length ≤ s.offset) :
    t.next s = (walkZeros t).map fun k => (k, s) := by
  induction t with
  | nil => rfl
  | node l r sym ihl ihr =>
      cases sym with
      | some k => rfl
      | none =>
          have hread : s.read = (0, s) := by
            rw [BitStream.read, if_pos (by omega)]
          simp only [HTree.next, walkZeros, hread]
          exact ihl

theorem c5_exhausted_next_witness :
    HTree.next (HuffmanTable ([[42]] ++ List.replicate 15 [])) ⟨[7], 8⟩ =
      (walkZeros (HuffmanTable ([[42]] ++ List.replicate 15 []))).map fun k => (k, ⟨[7], 8⟩) :=
  c5_exhausted_next (HuffmanTable ([[42]] ++ List.replicate 15 [])) ⟨[7], 8⟩ (by norm_num)

/-! ## Segment parsers (`decoder.py`, class `JPEG`)

Segments are the `L - 2` payload bytes handed to each handler as a
`BytesIO`; we model them as the remaining byte list.  `BytesIO.read(k)`
returns up to `k` bytes without failing; `unpack` on a short read raises
`struct.error`; `ensure_eos` raises a `JPEGDecodeError` when payload bytes
remain. -/

/-- One frame component's parameters (`self.csp[C]`). -/
structure CompParam where
  H : Nat
  V : Nat
  Tq : Nat
deriving Repr, DecidableEq

/-- One scan-header entry (`self.scan` elements). -/
structure ScanEntry where
  Cs : Nat
  Td : Nat
  Ta : Nat
deriving Repr, DecidableEq

/-- The decoder object's table/parameter store (`JPEG.__init__`). -/
structure JPEGState where
  qts : Nat → Option (List Nat)
  dcs : Nat → Option HTree
  acs : Nat → Option HTree
  csp : Nat → Option CompParam
  P : Nat
  Y : Int
  X : Int
  scan : List ScanEntry

/-- Fresh decoder state (`JPEG.__init__`). -/
def initJPEG : JPEGState :=
  { qts := fun _ => none, dcs := fun _ => none, acs := fun _ => none,
    csp := fun _ => none, P := 8, Y := -1, X := -1, scan := [] }

/-- Store under a dictionary key. -/
def updKey {β : Type} (f : Nat → Option β) (k : Nat) (v : β) : Nat → Option β :=
  fun i => if i = k then some v else f i

/-- The `while True` loop of `JPEG.dqt`: read a `(Pq,Tq)` nibble byte (stop
at end of segment), reject `Pq ≠ 0`, then unpack 64 quantization bytes. -/
def dqt_entries (j : JPEGState) : List Nat → Except PyErr JPEGState
  | [] => .ok j
  | b :: rest =>
      if b / 16 ≠ 0 then .error .jpegDecodeError
      else if 64 ≤ rest.length then
        dqt_entries { j with qts := updKey j.qts (b % 16) (rest.take 64) } (rest.drop 64)
      else .error .structError
  termination_by rem => rem.length
  decreasing_by simp [List.length_drop]; omega

/-- `JPEG.dqt` (the loop exits exactly at end of segment, so the final
`ensure_eos` always passes). -/
def JPEG.dqt (j : JPEGState) (segment : List Nat) : Except PyErr JPEGState :=
  dqt_entries j segment

/-- Read the 16 symbol lists of one `DHT` entry: bucket `i` takes `L[i]`
bytes; a short read makes `unpack` raise `struct.error`. -/
def takeBuckets : List Nat → List Nat → Except PyErr (List (List Nat))
  | [], _ => .ok []
  | n :: ns, rem =>
      if n ≤ rem.length then
        match takeBuckets ns (rem.drop n) with
        | .error e => .error e
        | .ok vs => .ok (rem.take n :: vs)
      else .error .structError

/-- The `while True` loop of `JPEG.dht`: read a `(Tc,Th)` nibble byte (stop
at end of segment), require `Tc ∈ [0,1]`, read 16 counts then the symbol
lists, and build the Huffman table into the DC or AC store keyed by `Th`. -/
def dht_entries (j : JPEGState) : List Nat → Except PyErr JPEGState
  | [] => .ok j
  | b :: rest =>
      if 1 < b / 16 then .error .jpegDecodeError
      else if 16 ≤ rest.length then
        match takeBuckets (rest.take 16) (rest.drop 16) with
        | .error e => .error e
        | .ok V =>
            let after := (rest.drop 16).drop (rest.take 16).sum
            if b / 16 = 0 then
              dht_entries { j with dcs := updKey j.dcs (b % 16) (HuffmanTable V) } after
            else
              dht_entries { j with acs := updKey j.acs (b % 16) (HuffmanTable V) } after
      else .error .structError
  termination_by rem => rem.length
  decreasing_by
    all_goals simp [List.length_drop]; omega

/-- `JPEG.dht`. -/
def JPEG.dht (j : JPEGState) (segment : List Nat) : Except PyErr JPEGState :=
  dht_entries j segment

/-- The component loop of `JPEG.sof0`: `Nf` triples `(C, H·16+V, Tq)`, each
sampling factor checked against `{1,2,4}`. -/
def sof0_components (csp : Nat → Option CompParam) :
    Nat → List Nat → Except PyErr ((Nat → Option CompParam) × List Nat)
  | 0, rem => .ok (csp, rem)
  | n + 1, rem =>
      match rem with
      | c :: hv :: tq :: rest =>
          if hv / 16 ∉ [1, 2, 4] then .error .jpegDecodeError
          else if hv % 16 ∉ [1, 2, 4] then .error .jpegDecodeError
          else sof0_components
            (updKey csp c { H := hv / 16, V := hv % 16, Tq := tq }) n rest
      | _ => .error .structError

/-- `JPEG.sof0`: `>BHHB` header (P, Y, X, Nf), `P = 8` and `Nf = 3`
mandatory, then the component list and the end-of-segment check. -/
def JPEG.sof0 (j : JPEGState) (segment : List Nat) : Except PyErr JPEGState :=
  match segment with
  | p :: y1 :: y0 :: x1 :: x0 :: nf :: rest =>
      if p ≠ 8 then .error .jpegDecodeError
      else if nf ≠ 3 then .error .jpegDecodeError
      else
        match sof0_components j.csp nf rest with
        | .error e => .error e
        | .ok (csp', rem) =>
            if rem = [] then
              .ok { j with
                      csp := csp'
                      P := p
                      Y := ((y1 * 256 + y0 : Nat) : Int)
                      X := ((x1 * 256 + x0 : Nat) : Int) }
            else .error .jpegDecodeError
  | _ => .error .structError

/-- The component loop of `JPEG.sos`: `Ns` pairs `(Cs, Td·16+Ta)`. -/
def sos_components : Nat → List Nat → Except PyErr (List ScanEntry × List Nat)
  | 0, rem => .ok ([], rem)
  | n + 1, rem =>
      match rem with
      | cs :: tdta :: rest =>
          match sos_components n rest with
          | .error e => .error e
          | .ok (es, rem') =>
              .ok ({ Cs := cs, Td := tdta / 16, Ta := tdta % 16 } :: es, rem')
      | _ => .error .structError

/-- `JPEG.sos`: read `Ns` and the component list, then `stream.read(3)`
(the Ss, Se, Ah/Al bytes — read and discarded, never inspected), then the
end-of-segment check. -/
def JPEG.sos (j : JPEGState) (segment : List Nat) : Except PyErr JPEGState :=
  match segment with
  | [] => .error .structError
  | ns :: rest =>
      match sos_components ns rest with
      | .error e => .error e
      | .ok (entries, rem) =>
          if rem.drop 3 = [] then .ok { j with scan := j.scan ++ entries }
          else .error .jpegDecodeError

/-! ### C3: scan-header parameter handling -/

theorem sos_components_encode (pairs : List (Nat × Nat)) : ∀ (tail : List Nat),
    sos_components pairs.length ((pairs.map fun p => [p.1, p.2]).flatten ++ tail) =
      .ok (pairs.map fun p => ⟨p.1, p.2 / 16, p.2 % 16⟩, tail) := by
  induction pairs with
  | nil => intro tail; rfl
  | cons q qs ih =>
      intro tail
      simp only [List.length_cons, List.map_cons, List.flatten_cons, List.cons_append,
        List.append_assoc, List.nil_append, sos_components, ih tail]

/-- **C3 counterexample**: a scan header whose three trailing parameter
bytes deviate from the baseline values (`Ss = 1` here) parses successfully,
while a scan header carrying the four baseline parameter bytes the claim
describes fails the end-of-segment check. -/
theorem c3_sos_counterexample :
    (JPEG.sos initJPEG [1, 1, 0, 1, 63, 0]).toOption.map (fun j => j.scan) =
      some [⟨1, 0, 0⟩] ∧
    JPEG.sos initJPEG [1, 1, 0, 0, 63, 0, 0] = .error .jpegDecodeError := by
  exact ⟨rfl, rfl⟩

/-- **C3 (amended)**: parsing an SOS segment consumes the scan component
list plus *three* bytes of parameters (Ss, Se, packed Ah/Al), which are
read and discarded without any validation: whatever their values, parsing
succeeds and stores exactly the component entries. -/
theorem c3_sos_params_ignored (j : JPEGState) (pairs : List (Nat × Nat))
    (b1 b2 b3 : Nat) :
    JPEG.sos j (pairs.length :: (pairs.map fun p => [p.1, p.2]).flatten ++ [b1, b2, b3]) =
      .ok { j with scan := j.scan ++ pairs.map fun p => ⟨p.1, p.2 / 16, p.2 % 16⟩ } := by
  have h := sos_components_encode pairs [b1, b2, b3]
  simp [JPEG.sos, h]

/-! ### C6: table identifiers are not range-checked -/

theorem dqt_accepts (j : JPEGState) (Tq : Nat) (q : List Nat)
    (hTq : Tq < 16) (hq : q.length = 64) :
    JPEG.dqt j (Tq :: q) = .ok { j with qts := updKey j.qts Tq q } := by
  have hdiv : Tq / 16 = 0 := Nat.div_eq_of_lt hTq
  have hmod : Tq % 16 = Tq := Nat.mod_eq_of_lt hTq
  have htake : q.take 64 = q := List.take_of_length_le (by omega)
  have hdrop : q.drop 64 = [] := List.drop_eq_nil_of_le (by omega)
  simp [JPEG.dqt, dqt_entries, hdiv, hmod, hq, htake, hdrop]

theorem dht_accepts_dc (j : JPEGState) (Th : Nat) (hTh : Th < 16) :
    JPEG.dht j (Th :: List.replicate 16 0) =
      .ok { j with dcs := updKey j.dcs Th (HuffmanTable (List.replicate 16 [])) } := by
  have hdiv : Th / 16 = 0 := Nat.div_eq_of_lt hTh
  have hmod : Th % 16 = Th := Nat.mod_eq_of_lt hTh
  simp [JPEG.dht, dht_entries, hdiv, hmod, takeBuckets, List.replicate_succ]

theorem dht_accepts_ac (j : JPEGState) (Th : Nat) (hTh : Th < 16) :
    JPEG.dht j ((16 + Th) :: List.replicate 16 0) =
      .ok { j with acs := updKey j.acs Th (HuffmanTable (List.replicate 16 [])) } := by
  have hdiv : (16 + Th) / 16 = 1 := by omega
  have hmod : (16 + Th) % 16 = Th := by omega
  simp [JPEG.dht, dht_entries, hdiv, hmod, takeBuckets, List.replicate_succ]

/-- **C6 counterexample**: a DQT entry with `Tq = 4` (outside `[0,3]`) and a
DHT entry with `Th = 5` (outside `{0,1}`) are both accepted and stored, not
rejected. -/
theorem c6_tq_th_counterexample :
    (JPEG.dqt initJPEG (4 :: List.replicate 64 7)).map (fun j => j.qts 4) =
      .ok (some (List.replicate 64 7)) ∧
    (JPEG.dht initJPEG (5 :: List.replicate 16 0)).map
        (fun j => (j.dcs 5).isSome) = .ok true := by
  constructor
  · rw [dqt_accepts initJPEG 4 (List.replicate 64 7) (by norm_num) (by simp)]
    rfl
  · rw [dht_accepts_dc initJPEG 5 (by norm_num)]
    rfl

/-- **C6 (amended)**: neither identifier field is range-checked.  `dqt`
accepts any nibble `Tq ∈ [0,15]` and stores the 64 coefficients under it;
`dht` checks only the class `Tc ∈ [0,1]` and stores the table under any
nibble `Th ∈ [0,15]`, in the DC store for `Tc = 0` and the AC store for
`Tc = 1`. -/
theorem c6_table_ids_unchecked (j : JPEGState) (Tq Th : Nat) (q : List Nat)
    (hTq : Tq < 16) (hTh : Th < 16) (hq : q.length = 64) :
    JPEG.dqt j (Tq :: q) = .ok { j with qts := updKey j.qts Tq q } ∧
    JPEG.dht j (Th :: List.replicate 16 0) =
      .ok { j with dcs := updKey j.dcs Th (HuffmanTable (List.replicate 16 [])) } ∧
    JPEG.dht j ((16 + Th) :: List.replicate 16 0) =
      .ok { j with acs := updKey j.acs Th (HuffmanTable (List.replicate 16 [])) } :=
  ⟨dqt_accepts j Tq q hTq hq, dht_accepts_dc j Th hTh, dht_accepts_ac j Th hTh⟩

theorem c6_table_ids_unchecked_witness :
    JPEG.dqt initJPEG (4 :: List.replicate 64 7) =
      .ok { initJPEG with qts := updKey initJPEG.qts 4 (List.replicate 64 7) } ∧
    JPEG.dht initJPEG (5 :: List.replicate 16 0) =
      .ok { initJPEG with
              dcs := updKey initJPEG.dcs 5 (HuffmanTable (List.replicate 16 [])) } :=
  ⟨(c6_table_ids_unchecked initJPEG 4 5 (List.replicate 64 7)
      (by norm_num) (by norm_num) (by simp)).1,
   (c6_table_ids_unchecked initJPEG 4 5 (List.replicate 64 7)
      (by norm_num) (by norm_num) (by simp)).2.1⟩

/-! ## Marker-driven decode loop (`decoder.py`, `JPEG.decode`) -/

/-- The recognized markers (`MARKERS` / `MARKERS_MAP`). -/
inductive Marker where
  | SOI | APP0 | DQT | SOF0 | DHT | SOS | EOI | COM
deriving Repr, DecidableEq

/-- `MARKERS_MAP` lookup: two marker bytes to name; anything else (including
short reads at end of input) is unrecognized. -/
def markerOf : List Nat → Option Marker
  | [0xff, 0xd8] => some .SOI
  | [0xff, 0xe0] => some .APP0
  | [0xff, 0xdb] => some .DQT
  | [0xff, 0xc0] => some .SOF0
  | [0xff, 0xc4] => some .DHT
  | [0xff, 0xda] => some .SOS
  | [0xff, 0xd9] => some .EOI
  | [0xff, 0xfe] => some .COM
  | _ => none

/-- The entropy-coded-segment extraction loop after `SOS` (decoder.py lines
233–240): copy bytes, destuff `FF 00` to `FF`, and stop (rewinding two
bytes) at `FF xx`.  At end of input the Python loop appends empty reads
forever; that divergence is reported as `.hang`. -/
def extractScan (acc : List Nat) : List Nat → Except PyErr (List Nat × List Nat)
  | [] => .error .hang
  | [b] =>
      if b = 0xff then .error .hang
      else extractScan (acc ++ [b]) []
  | b :: b2 :: rest =>
      if b = 0xff then
        if b2 = 0 then extractScan (acc ++ [0xff]) rest
        else .ok (acc, b :: b2 :: rest)
      else extractScan (acc ++ [b]) (b2 :: rest)

theorem extractScan_le : ∀ (n : Nat) (l acc e rem : List Nat), l.length ≤ n →
    extractScan acc l = .ok (e, rem) → rem.length ≤ l.length := by
  intro n
  induction n with
  | zero =>
      intro l acc e rem hlen heq
      cases l with
      | nil => simp [extractScan] at heq
      | cons b rest => simp at hlen
  | succ n ih =>
      intro l acc e rem hlen heq
      match l with
      | [] => simp [extractScan] at heq
      | [b] =>
          by_cases hb : b = 0xff <;>
            simp [extractScan, hb] at heq
      | b :: b2 :: rest =>
          simp only [extractScan] at heq
          by_cases hb : b = 0xff
          · rw [if_pos hb] at heq
            by_cases hb2 : b2 = 0
            · rw [if_pos hb2] at heq
              have := ih rest (acc ++ [0xff]) e rem
                (by simp at hlen ⊢; omega) heq
              simp
              omega
            · rw [if_neg hb2] at heq
              simp only [Except.ok.injEq, Prod.mk.injEq] at heq
              obtain ⟨_, h2⟩ := heq
              subst h2
              simp
          · rw [if_neg hb] at heq
            have := ih (b2 :: rest) (acc ++ [b]) e rem
              (by simp at hlen ⊢; omega) heq
            simp at this ⊢
            omega

theorem seg_after_len (input : List Nat) (L : Nat)
    (h2 : 2 ≤ (input.drop 2).length) :
    (if 2 ≤ L then ((input.drop 2).drop 2).drop (L - 2) else ([] : List Nat)).length
      < input.length := by
  split <;> (simp at h2 ⊢; omega)

/-- The `while True` marker dispatch loop of `JPEG.decode` (lines 210–241).
The entropy-coded-segment decoder (`decode_ecs`, whose inverse DCT is
floating point) is a parameter `ecs`; the loop itself never inspects the
image values it produces.  A short length read raises `struct.error`; a
declared length of 0 makes the Python file object reject `read(-2)` with a
`ValueError`, while a length of 1 makes `read(-1)` consume the whole rest of
the stream. -/
def decodeLoop {α : Type} (ecs : JPEGState → List Nat → Except PyErr α)
    (j : JPEGState) (img : Option α) (input : List Nat) :
    Except PyErr (JPEGState × Option α) :=
  match markerOf (input.take 2) with
  | none => .error .jpegDecodeError
  | some .SOI => .error .jpegDecodeError
  | some .EOI => if input.drop 2 = [] then .ok (j, img) else .error .jpegDecodeError
  | some m =>
      if h2 : 2 ≤ (input.drop 2).length then
        let L := (input.drop 2).getD 0 0 * 256 + (input.drop 2).getD 1 0
        if hL0 : L = 0 then .error .valueError
        else
          let segment := if 2 ≤ L then ((input.drop 2).drop 2).take (L - 2)
            else (input.drop 2).drop 2
          let after := if 2 ≤ L then ((input.drop 2).drop 2).drop (L - 2)
            else ([] : List Nat)
          match m with
          | .APP0 => decodeLoop ecs j img after
          | .COM => decodeLoop ecs j img after
          | .DQT =>
              match JPEG.dqt j segment with
              | .error e => .error e
              | .ok j' => decodeLoop ecs j' img after
          | .SOF0 =>
              match JPEG.sof0 j segment with
              | .error e => .error e
              | .ok j' => decodeLoop ecs j' img after
          | .DHT =>
              match JPEG.dht j segment with
              | .error e => .error e
              | .ok j' => decodeLoop ecs j' img after
          | .SOS =>
              match JPEG.sos j segment with
              | .error e => .error e
              | .ok j' =>
                  match hex : extractScan [] after with
                  | .error e => .error e
                  | .ok (entropy, after') =>
                      match ecs j' entropy with
                      | .error e => .error e
                      | .ok im => decodeLoop ecs j' (some im) after'
          | .SOI => .error .jpegDecodeError
          | .EOI => .error .jpegDecodeError
      else .error .structError
  termination_by input.length
  decreasing_by
    all_goals
      first
      | exact seg_after_len input _ h2
      | (have h1 : after.length < input.length := seg_after_len input _ h2
         have hle := extractScan_le after.length after [] entropy after' (le_refl _) hex
         omega)

/-- `JPEG.decode`: expect `SOI` first, run the marker loop, and if a scan
was decoded hand the image and final state to the post-processing of lines
244–249 (crop, `ycbcr2bgr`, clip, cast, transpose — `post`, parametric here
because it is floating point and modelled separately). -/
def JPEG.decode {α β : Type} (ecs : JPEGState → List Nat → Except PyErr α)
    (post : JPEGState → α → β) (input : List Nat) : Except PyErr (Option β) :=
  if input.take 2 = [0xff, 0xd8] then
    match decodeLoop ecs initJPEG none (input.drop 2) with
    | .error e => .error e
    | .ok (_, none) => .ok none
    | .ok (jf, some im) => .ok (some (post jf im))
  else .error .jpegDecodeError

/-! ### C2: end-of-image before any scan -/

/-- A well-formed skippable segment (`COM` when the flag is set, else
`APP0`): marker, big-endian length counting itself, then the payload. -/
def skipSeg (com : Bool) (payload : List Nat) : List Nat :=
  (if com then [0xff, 0xfe] else [0xff, 0xe0]) ++
    [(payload.length + 2) / 256, (payload.length + 2) % 256] ++ payload

set_option maxHeartbeats 1000000 in
theorem decodeLoop_skipSeg {α : Type} (ecs : JPEGState → List Nat → Except PyErr α)
    (j : JPEGState) (img : Option α) (com : Bool) (payload rest : List Nat) :
    decodeLoop ecs j img (skipSeg com payload ++ rest) =
      decodeLoop ecs j img rest := by
  have hL : (payload.length + 2) / 256 * 256 + (payload.length + 2) % 256 =
      payload.length + 2 := by omega
  have htake : (payload ++ rest).take (payload.length + 2 - 2) = payload := by
    simp [List.take_left]
  have hdrop : (payload ++ rest).drop (payload.length + 2 - 2) = rest := by
    simp [List.drop_left]
  cases com <;>
  · simp only [skipSeg, if_true, if_false, List.cons_append, List.nil_append,
      List.append_assoc]
    rw [decodeLoop.eq_def]
    simp [markerOf, hL, htake, hdrop,
      show ¬(payload.length + 2 = 0) from by omega,
      show 2 ≤ payload.length + 2 from by omega]

theorem decodeLoop_skips {α : Type} (ecs : JPEGState → List Nat → Except PyErr α)
    (segs : List (Bool × List Nat)) : ∀ (j : JPEGState) (img : Option α),
    decodeLoop ecs j img
        ((segs.map fun p => skipSeg p.1 p.2).flatten ++ [0xff, 0xd9]) =
      .ok (j, img) := by
  induction segs with
  | nil =>
      intro j img
      simp [decodeLoop, markerOf]
  | cons q qs ih =>
      intro j img
      simp only [List.map_cons, List.flatten_cons, List.append_assoc]
      rw [decodeLoop_skipSeg]
      exact ih j img

/-- **C2 counterexample**: the byte stream `FFD8 FFD9` (end-of-image
immediately after start-of-image, before any frame header or scan) does not
make `decode` fail: it returns normally with no image. -/
theorem c2_eoi_counterexample :
    JPEG.decode (fun _ _ => (.error .hang : Except PyErr Unit))
      (fun _ im => (im : Unit)) [0xff, 0xd8, 0xff, 0xd9] = .ok none := by
  simp [JPEG.decode, decodeLoop, markerOf]

/-- **C2 (amended)**: when the end-of-image marker is encountered before any
frame header and scan have been processed (here: after `SOI` and any number
of well-formed APP0/COM segments, with nothing following `EOI`), `decode`
returns normally with no image (`None`); it does not raise. -/
theorem c2_eoi_returns_none {α β : Type} (ecs : JPEGState → List Nat → Except PyErr α)
    (post : JPEGState → α → β) (segs : List (Bool × List Nat))
    (hb : ∀ p ∈ segs, (p.2).length ≤ 65533) :
    JPEG.decode ecs post
        ([0xff, 0xd8] ++ (segs.map fun p => skipSeg p.1 p.2).flatten ++ [0xff, 0xd9]) =
      .ok none := by
  have hdec := decodeLoop_skips ecs segs initJPEG none
  simp [JPEG.decode, hdec]

theorem c2_eoi_returns_none_witness :
    JPEG.decode (fun _ _ => (.error .hang : Except PyErr Unit))
        (fun _ im => (im : Unit)) ([0xff, 0xd8] ++
          ([(true, [1, 2, 3])].map fun p => skipSeg p.1 p.2).flatten ++ [0xff, 0xd9]) =
      .ok none :=
  c2_eoi_returns_none (fun _ _ => (.error .hang : Except PyErr Unit))
    (fun _ im => (im : Unit)) [(true, [1, 2, 3])] (by simp)

/-! ## Entropy block decoding (`decoder.py`, `decode_block`, lines 155–172)

Only the coefficient-producing part is embedded here (differential DC plus
the AC run-length loop and the 64-element structural check); the subsequent
dequantization/IDCT/level-shift consume the 64 coefficients and do not
affect how many are produced. -/

/-- The AC run-length loop (`while len(c) < 64`). -/
def acLoop (ac : HTree) (c : List Int) (s : BitStream) :
    Except PyErr (List Int × BitStream) :=
  if h : c.length < 64 then
    match ac.next s with
    | .error e => .error e
    | .ok (rs, s1) =>
        if rs / 16 = 0 ∧ rs % 16 = 0 then
          .ok (c ++ List.replicate (64 - c.length) 0, s1)
        else
          let p := s1.read_signed (rs % 16)
          acLoop ac (c ++ List.replicate (rs / 16) 0 ++ [p.1]) p.2
  else .ok (c, s)
  termination_by 64 - c.length
  decreasing_by simp [List.length_append]; omega

/-- `decode_block` up to the structural check: decode the DC category,
update the DC accumulator, run the AC loop, and require exactly 64
coefficients. -/
def decode_block (dc ac : HTree) (dc_acc : Int) (s : BitStream) :
    Except PyErr (List Int × Int × BitStream) :=
  match dc.next s with
  | .error e => .error e
  | .ok (T, s1) =>
      let p := s1.read_signed T
      match acLoop ac [dc_acc + p.1] p.2 with
      | .error e => .error e
      | .ok (c, s3) =>
          if c.length ≠ 64 then .error .jpegDecodeError
          else .ok (c, dc_acc + p.1, s3)

/-- **C9**: decoding one 8×8 block produces exactly 64 coefficients —
every successful `decode_block` returns a 64-element list; an end-of-block
symbol (`run = size = 0`) fills all remaining coefficients with zero; a
run/value step that would exceed 64 coefficients stops the loop past 64,
after which `decode_block` raises the fatal malformed-block error. -/
theorem c9_block_is_64 (dc ac : HTree) (dc_acc : Int) (s : BitStream) :
    (∀ r, decode_block dc ac dc_acc s = .ok r → r.1.length = 64) ∧
    (∀ (c : List Int) (t s' : BitStream), c.length < 64 → ac.next t = .ok (0, s') →
        acLoop ac c t = .ok (c ++ List.replicate (64 - c.length) 0, s')) ∧
    (∀ (c : List Int) (t s1 : BitStream) (rs : Nat), c.length < 64 →
        ac.next t = .ok (rs, s1) → ¬(rs / 16 = 0 ∧ rs % 16 = 0) →
        64 ≤ c.length + rs / 16 + 1 →
        acLoop ac c t =
          .ok (c ++ List.replicate (rs / 16) 0 ++ [(s1.read_signed (rs % 16)).1],
               (s1.read_signed (rs % 16)).2)) ∧
    (∀ (T : Nat) (s1 : BitStream) (c : List Int) (s3 : BitStream),
        dc.next s = .ok (T, s1) →
        acLoop ac [dc_acc + (s1.read_signed T).1] (s1.read_signed T).2 = .ok (c, s3) →
        c.length ≠ 64 →
        decode_block dc ac dc_acc s = .error .jpegDecodeError) := by
  refine ⟨?_, ?_, ?_, ?_⟩
  · intro r h
    simp only [decode_block] at h
    split at h
    · exact absurd h (by simp)
    · split at h
      · exact absurd h (by simp)
      · split at h
        · exact absurd h (by simp)
        · rename_i hc
          simp only [Except.ok.injEq] at h
          rw [← h]
          simp
          omega
  · intro c t s' hlt hnext
    rw [acLoop.eq_def, dif_pos hlt, hnext]
    norm_num
  · intro c t s1 rs hlt hnext hne hover
    rw [acLoop.eq_def, dif_pos hlt, hnext]
    simp only [if_neg hne]
    rw [acLoop.eq_def, dif_neg (by simp [List.length_append]; omega)]
  · intro T s1 c s3 hdc hac hne
    simp only [decode_block, hdc, hac]
    rw [if_pos hne]

theorem c9_block_is_64_witness :
    ([(0 : Int)].length < 64 ∧
      acLoop (HuffmanTable ([[0]] ++ List.replicate 15 [])) [(0 : Int)] ⟨[0], 1⟩ =
        .ok ([(0 : Int)] ++ List.replicate 63 0, ⟨[0], 2⟩)) := by
  refine ⟨by norm_num, ?_⟩
  have h := (c9_block_is_64 (HuffmanTable ([[0]] ++ List.replicate 15 []))
    (HuffmanTable ([[0]] ++ List.replicate 15 [])) 0 ⟨[0], 0⟩).2.1
  exact h [(0 : Int)] ⟨[0], 1⟩ ⟨[0], 2⟩ (by norm_num) rfl

/-! ## Upsampling and MCU assembly (`image.py`; `decoder.py`, `decode_mcu`)

Planes and blocks are modelled as functions from (row, column); numpy's
full-plane slice assignment `mcu[i] = ...` resolves a negative index `i`
Python-style (adding the axis length 3) and raises `IndexError` outside
`[-3, 2]`. -/

/-- `image.py upsample_v`: replicate each row `k` times (`ret[i::k] = img`). -/
def upsample_v (img : Nat → Nat → Int) (k : Nat) : Nat → Nat → Int :=
  fun r c => img (r / k) c

/-- Matrix transpose (`.T`). -/
def transposeFn (img : Nat → Nat → Int) : Nat → Nat → Int :=
  fun r c => img c r

/-- `image.py upsample`: vertical then horizontal nearest-neighbour
replication via two transposed `upsample_v` passes. -/
def upsample (img : Nat → Nat → Int) (kv kh : Nat) : Nat → Nat → Int :=
  transposeFn (upsample_v (transposeFn (upsample_v img kv)) kh)

/-- The identity of one scan component inside `decode_mcu` (its tables,
quantizer and DC accumulator live in the abstract block-decoder state). -/
structure ScanParamM where
  Cs : Nat
  H : Nat
  V : Nat
deriving Repr, DecidableEq

/-- The `decode_block(param)` calls of one component's `V × H` block loop,
in row-major order, threading the decoder state. -/
def decodeBlocks {σ : Type} (db : σ → Except PyErr ((Nat → Nat → Int) × σ)) :
    Nat → σ → Except PyErr (List (Nat → Nat → Int) × σ)
  | 0, st => .ok ([], st)
  | n + 1, st =>
      match db st with
      | .error e => .error e
      | .ok (blk, st') =>
          match decodeBlocks db n st' with
          | .error e => .error e
          | .ok (blks, st'') => .ok (blk :: blks, st'')

/-- The component buffer: `buf[8i:8i+8, 8j:8j+8]` holds block `i*H + j`. -/
def bufOf (blocks : List (Nat → Nat → Int)) (H : Nat) : Nat → Nat → Int :=
  fun r c => (blocks.getD (r / 8 * H + c / 8) fun _ _ => 0) (r % 8) (c % 8)

/-- numpy plane assignment `mcu[i] = p` with Python index semantics on the
first axis of length 3. -/
def npSetPlane (mcu : Fin 3 → Nat → Nat → Int) (i : Int) (p : Nat → Nat → Int) :
    Except PyErr (Fin 3 → Nat → Nat → Int) :=
  if h : -3 ≤ i ∧ i < 3 then
    let k : Fin 3 := ⟨(if i < 0 then i + 3 else i).toNat, by
      rcases h with ⟨h1, h2⟩; split <;> omega⟩
    .ok fun t => if t = k then p else mcu t
  else .error .indexError

/-- The per-component body of `decode_mcu`: decode the `V × H` blocks,
assemble/upsample the buffer, and write it at plane index `Cs - 1`. -/
def decode_mcu_go {σ : Type}
    (db : ScanParamM → σ → Except PyErr ((Nat → Nat → Int) × σ))
    (Vmax Hmax : Nat) :
    List ScanParamM → (Fin 3 → Nat → Nat → Int) → σ →
      Except PyErr ((Fin 3 → Nat → Nat → Int) × σ)
  | [], mcu, st => .ok (mcu, st)
  | param :: rest, mcu, st =>
      match decodeBlocks (db param) (param.V * param.H) st with
      | .error e => .error e
      | .ok (blocks, st') =>
          match npSetPlane mcu ((param.Cs : Int) - 1)
              (upsample (bufOf blocks param.H) (Vmax / param.V) (Hmax / param.H)) with
          | .error e => .error e
          | .ok mcu' => decode_mcu_go db Vmax Hmax rest mcu' st'

/-- `decode_mcu`: start from a zero MCU and process each scan component. -/
def decode_mcu {σ : Type} (scan : List ScanParamM)
    (db : ScanParamM → σ → Except PyErr ((Nat → Nat → Int) × σ))
    (Vmax Hmax : Nat) (st : σ) :
    Except PyErr ((Fin 3 → Nat → Nat → Int) × σ) :=
  decode_mcu_go db Vmax Hmax scan (fun _ _ _ => 0) st

/-- **C10**: during MCU assembly, a scan component's upsampled buffer is
written into the plane at index `Cs - 1` with no validation of `Cs`; in
particular a component with identifier `Cs = 0` is silently written into
the *last* plane (Python index `-1`, i.e. plane 2) instead of raising an
error: `decode_mcu` succeeds and the other planes stay zero. -/
theorem c10_cs_zero_writes_last_plane {σ : Type}
    (db : ScanParamM → σ → Except PyErr ((Nat → Nat → Int) × σ))
    (Vmax Hmax : Nat) (st : σ) (p : ScanParamM) (hcs : p.Cs = 0)
    (blocks : List (Nat → Nat → Int)) (st' : σ)
    (hdec : decodeBlocks (db p) (p.V * p.H) st = .ok (blocks, st')) :
    decode_mcu [p] db Vmax Hmax st =
      .ok ((fun t => if t = (2 : Fin 3) then
              upsample (bufOf blocks p.H) (Vmax / p.V) (Hmax / p.H)
            else fun _ _ => 0), st') := by
  simp only [decode_mcu, decode_mcu_go, hdec, hcs]
  have hidx : ((0 : Nat) : Int) - 1 = -1 := by norm_num
  rw [hidx]
  simp only [npSetPlane]
  rw [dif_pos (by norm_num)]
  rfl

theorem c10_cs_zero_writes_last_plane_witness :
    decode_mcu [⟨0, 1, 1⟩] (fun _ _ => .ok ((fun _ _ => (1 : Int)), ())) 1 1 () =
      .ok ((fun t => if t = (2 : Fin 3) then
              upsample (bufOf [fun _ _ => (1 : Int)] 1) 1 1
            else fun _ _ => 0), ()) :=
  c10_cs_zero_writes_last_plane (fun _ _ => .ok ((fun _ _ => (1 : Int)), ()))
    1 1 () ⟨0, 1, 1⟩ rfl [fun _ _ => (1 : Int)] () rfl

/-! ## Color conversion (`image.py ycbcr2bgr`; `decoder.py` lines 244–249)

The conversion is floating point in the source; it is modelled here in
exact rational arithmetic (the divergence exhibited below is ~160 output
levels, far beyond any float64 rounding effect).  `np.round` rounds
half-to-even. -/

/-- `np.round`: round to nearest, ties to even. -/
def npRound (q : ℚ) : ℤ :=
  let f := Int.floor q
  let r := q - f
  if r < 1 / 2 then f
  else if 1 / 2 < r then f + 1
  else if f % 2 = 0 then f else f + 1

/-- `np.clip(·, 0, 255)` on an integer sample (`2 ^ P - 1 = 255`). -/
def clip255 (v : Int) : Int := max 0 (min v 255)

/-- `image.py ycbcr2bgr`, per pixel: shift the chroma channels and apply the
source's constants, returning the stacked `(B, G, R)` values. -/
def ycbcr2bgr_px (shift yv cbv crv : ℚ) : ℚ × ℚ × ℚ :=
  let cb := cbv - shift
  let cr := crv - shift
  let R := yv + 1.402 * cr
  let G := yv - 0.34414 * cb - 0.71414 * cr
  let B := yv + 0.1772 * cb
  (B, G, R)

/-- decoder.py lines 245–248, per pixel: convert with shift `2^(P-1) = 128`,
round every channel, and clamp to `[0, 255]`. -/
def decodedPixelBGR (yv cbv crv : Int) : Int × Int × Int :=
  let p := ycbcr2bgr_px 128 (yv : ℚ) (cbv : ℚ) (crv : ℚ)
  (clip255 (npRound p.1), clip255 (npRound p.2.1), clip255 (npRound p.2.2))

/-- The conversion as the specification states it (JFIF's full formulas):
`R = Y + 1.402·(Cr−128)`, `G = Y − 0.344136·(Cb−128) − 0.714136·(Cr−128)`,
`B = Y + 1.772·(Cb−128)`, each channel rounded and clamped to `[0, 255]`. -/
def specPixelBGR (yv cbv crv : Int) : Int × Int × Int :=
  let cb := (cbv : ℚ) - 128
  let cr := (crv : ℚ) - 128
  let R := (yv : ℚ) + 1.402 * cr
  let G := (yv : ℚ) - 0.344136 * cb - 0.714136 * cr
  let B := (yv : ℚ) + 1.772 * cb
  (clip255 (npRound B), clip255 (npRound G), clip255 (npRound R))

/-- **C1**: at the pixel `Y = 128, Cb = 228, Cr = 128` the decoder's blue
channel is `round(128 + 0.1772·100) = 146`, while the claimed (and JFIF)
formula `B = Y + 1.772·(Cb−128)` gives `255` after clamping: the code's
`0.1772` coefficient contradicts the JFIF document its own comment cites. -/
theorem c1_blue_coefficient_bug :
    decodedPixelBGR 128 228 128 = (146, 94, 128) ∧
    specPixelBGR 128 228 128 = (255, 94, 128) ∧
    (decodedPixelBGR 128 228 128).1 ≠ (specPixelBGR 128 228 128).1 := by
  refine ⟨?_, ?_, ?_⟩ <;>
    norm_num [decodedPixelBGR, specPixelBGR, ycbcr2bgr_px, npRound, clip255]

end MyJpeg
